import Mathlib

/-!
# Package `graphql`, file `graphql_errors.go`

A shallow embedding of the two error types of the package and of their
`Error()` methods, followed by the properties of the textual rendering.

* A Go `string` is a finite sequence of bytes (`GoString`).
* A Go slice value is either `nil` or a sequence of elements (`Slice`); the
  package only takes `len` of a slice, ranges over it and assigns to an index.
* Where sharing matters, a slice variable is a header over a backing array in a heap
  (`SliceRef`, `Heap`), and its slice value is what is seen through the header.
* A run-time panic (index out of range) is the result `none`.
* `interface{}` is a type parameter `Any`: the methods never look at such a value.
-/

set_option linter.dupNamespace false

namespace graphql

/-! ## Go values -/

/-- A Go string: an immutable sequence of bytes. -/
abbrev GoString := List UInt8

/-- The Go string denoted by a string literal of the source: its UTF-8 bytes. -/
def lit (s : String) : GoString := s.toUTF8.data.toList

/-- A Go slice value: the nil slice, or a slice over a sequence of elements. -/
inductive Slice (α : Type) where
  | nil : Slice α
  | mk (elems : List α) : Slice α

/-- The elements of a slice, in index order (none for the nil slice). -/
def Slice.toList {α : Type} : Slice α → List α
  | Slice.nil => []
  | Slice.mk xs => xs

/-- Go `len(s)`. -/
def Slice.len {α : Type} (s : Slice α) : Nat := s.toList.length

/-- Go `make([]T, n)`: a fresh slice of `n` zero values. -/
def Slice.make {α : Type} (zero : α) (n : Nat) : Slice α := Slice.mk (List.replicate n zero)

/-- Go `s[i]`: the element at index `i`, or a panic when `i` is out of range. -/
def Slice.index {α : Type} (s : Slice α) (i : Nat) : Option α := s.toList[i]?

/-- Go `s[i] = v`: the slice after the assignment, or a panic when `i` is out of range. -/
def Slice.assign {α : Type} (s : Slice α) (i : Nat) (v : α) : Option (Slice α) :=
  if i < s.len then some (Slice.mk (s.toList.set i v)) else none

/-- Go `s[lo:hi]` on a string: the bytes at offsets `lo`, ..., `hi - 1`. -/
def substr (s : GoString) (lo hi : Nat) : GoString := (s.take hi).drop lo

/-- Go `strings.HasPrefix(s, p)`: `len(s) >= len(p) && s[:len(p)] == p`. -/
def startsWith (s p : GoString) : Bool := decide (p.length ≤ s.length) && s.take p.length == p

/-- Go standard library `strings.Join(elems, sep)`: the empty string for no elements, the
element itself for one, and otherwise a builder that receives `elems[0]` and then, for every
further element, `sep` followed by the element. Lengths are unbounded naturals here, so the
guard of the library against an output longer than the largest `int` has no counterpart. -/
def strings.Join (elems : Slice GoString) (sep : GoString) : GoString :=
  match elems.toList with
  | [] => lit ""
  | [x] => x
  | x :: rest => rest.foldl (fun b s => (b ++ sep) ++ s) x

/-! ## The types of the package -/

/-- A Location is a location in the GraphQL query that resulted in an error. -/
structure Location where
  Line : Int
  Column : Int

/-- An Error contains error information returned by the GraphQL server.
`Extensions` is a Go map: `none` is the nil map, otherwise its entries. -/
structure Error (Any : Type) where
  Message : GoString
  Locations : Slice Location
  Path : Slice Any
  Extensions : Option (List (GoString × Any))

/-- Errors contains the errors that were returned by the GraphQL server: `[]Error`. -/
abbrev Errors (Any : Type) := Slice (Error Any)

/-- The variables of `Errors.Error` that are live in its loop: the receiver and `errs`. -/
structure Frame (Any : Type) where
  errors : Errors Any
  errs : Slice GoString

variable {Any : Type}

/-! ## The methods -/

/-- The loop `for i, e := range errors { errs[i] = e.Message }`, from index `i` on with
`k` iterations left: each iteration reads `errors[i]` into `e` and assigns `errs[i]`. -/
def rangeLoop : Nat → Nat → Frame Any → Option (Frame Any)
  | 0, _, fr => some fr
  | k + 1, i, fr =>
    match fr.errors.index i with
    | none => none
    | some e =>
      match fr.errs.assign i e.Message with
      | none => none
      | some errs => rangeLoop k (i + 1) { fr with errs := errs }

/-- The body of `func (errors Errors) Error() string`, run on the receiver: the returned
string together with the receiver as the body leaves it, or `none` for a panic. -/
def Errors.Error.run (errors : Errors Any) : Option (GoString × Errors Any) :=
  if errors.len == 0 then
    some (lit "no errors", errors)
  else
    match rangeLoop errors.len 0 { errors := errors, errs := Slice.make (lit "") errors.len } with
    | none => none
    | some fr => some (lit "graphql: " ++ strings.Join fr.errs (lit "; "), fr.errors)

/-- The method `func (errors Errors) Error() string`: the string it returns. -/
def Errors.Error (errors : Errors Any) : Option GoString :=
  (Errors.Error.run errors).map Prod.fst

/-- The body of `func (e Error) Error() string`, run on the receiver: the returned string
together with the receiver as the body leaves it. -/
def Error.Error.run (e : Error Any) : GoString × Error Any :=
  (lit "graphql: " ++ e.Message, e)

/-- The method `func (e Error) Error() string`: the string it returns. -/
def Error.Error (e : Error Any) : GoString :=
  (Error.Error.run e).1

/-! ## The rendering as the specification words it -/

/-- The messages written one after another with `sep` between each adjacent pair and
nothing after the last one. -/
def specJoined (sep : GoString) : List GoString → GoString
  | [] => []
  | [m] => m
  | m :: ms => m ++ sep ++ specJoined sep ms

/-- The rendering of a non-empty list as specified: the fixed text `graphql: ` and then
the messages joined by `; `. -/
def specRendering (msgs : List GoString) : GoString :=
  lit "graphql: " ++ specJoined (lit "; ") msgs

/-- The messages of the items of a list, in stored order. -/
def messages (errors : Errors Any) : List GoString :=
  errors.toList.map (fun e => e.Message)

/-! ## Slices as headers over backing arrays -/

/-- Go `append(a, b...)` as a value: the elements of `a` followed by those of `b`. -/
def Slice.append {α : Type} (a b : Slice α) : Slice α := Slice.mk (a.toList ++ b.toList)

/-- The backing arrays of the slices of one element type, by address. -/
abbrev Heap (α : Type) := List (List α)

/-- A Go slice header: the backing array, the offset of the first element in it and the
length. The capacity is left out: nothing here appends or reslices. -/
structure Header where
  array : Nat
  off : Nat
  len : Nat

/-- A Go slice variable: the nil slice (`none`) or a header. -/
abbrev SliceRef := Option Header

/-- The header, if any, lies within an allocated backing array. -/
def SliceRef.valid {α : Type} (h : Heap α) : SliceRef → Bool
  | none => true
  | some hd => decide (hd.array < h.length) && decide (hd.off + hd.len ≤ (h.getD hd.array []).length)

/-- The slice value seen through a slice variable: the elements of the backing array from
the offset on, for the length. -/
def SliceRef.deref {α : Type} (h : Heap α) : SliceRef → Slice α
  | none => Slice.nil
  | some hd => Slice.mk (((h.getD hd.array []).drop hd.off).take hd.len)

/-- Go `s[i] = v` through a slice variable: the write lands in the backing array, or the
statement panics when `i` is out of range. -/
def SliceRef.store {α : Type} (h : Heap α) (s : SliceRef) (i : Nat) (v : α) : Option (Heap α) :=
  match s with
  | none => none
  | some hd =>
    if i < hd.len then some (h.set hd.array ((h.getD hd.array []).set (hd.off + i) v))
    else none

/-- The conversion `Errors(s)` of a `[]Error`: `type Errors []Error` has the underlying type
of `s`, so the conversion changes the static type only. It yields the header of `s` and
writes nothing. -/
def Errors.ofSlice (h : Heap (graphql.Error Any)) (s : SliceRef) :
    Heap (graphql.Error Any) × SliceRef :=
  (h, s)

/-- The method `Errors.Error` called on a slice variable: the receiver is the slice value
seen through the header at the time of the call. -/
def Errors.Error.inHeap (h : Heap (graphql.Error Any)) (L : SliceRef) : Option GoString :=
  Errors.Error (SliceRef.deref h L)

/-! ## Sample values -/

/-- Dynamically typed scalar values, enough to populate `Path` and `Extensions`. -/
inductive Scalar where
  | str (s : GoString) : Scalar
  | int (n : Int) : Scalar

/-- An error that carries only a message. -/
def plain (msg : String) : Error Scalar :=
  { Message := lit msg, Locations := Slice.nil, Path := Slice.nil, Extensions := none }

/-- An error with every field populated. -/
def detailed (msg : String) : Error Scalar :=
  { Message := lit msg
    Locations := Slice.mk [{ Line := 2, Column := 9 }]
    Path := Slice.mk [Scalar.str (lit "user"), Scalar.int 0, Scalar.str (lit "name")]
    Extensions := some [(lit "code", Scalar.str (lit "BAD_INPUT"))] }

/-- A heap with one backing array that holds a single error with message `a`. -/
def heap0 : Heap (Error Scalar) := [[plain "a"]]

/-- The slice `s` over the whole of that array. -/
def s0 : SliceRef := some { array := 0, off := 0, len := 1 }

/-! ## Lemmas on the library functions and the loop -/

theorem lit_empty : lit "" = [] := by decide

theorem lit_graphql_length : (lit "graphql: ").length = 9 := by decide

theorem lit_sep_length : (lit "; ").length = 2 := by decide

theorem specJoined_cons_append (sep a b : GoString) (r : List GoString) :
    specJoined sep ((a ++ b) :: r) = a ++ specJoined sep (b :: r) := by
  cases r with
  | nil => simp [specJoined]
  | cons y r => simp [specJoined, List.append_assoc]

theorem builder_eq_specJoined (sep : GoString) (rest : List GoString) :
    ∀ x : GoString, rest.foldl (fun b s => (b ++ sep) ++ s) x = specJoined sep (x :: rest) := by
  induction rest with
  | nil => intro x; simp [specJoined]
  | cons y r ih =>
    intro x
    rw [List.foldl_cons, ih, specJoined_cons_append]
    simp [specJoined, List.append_assoc]

theorem strings_Join_eq (elems : Slice GoString) (sep : GoString) :
    strings.Join elems sep = specJoined sep elems.toList := by
  unfold strings.Join
  cases h : elems.toList with
  | nil => simp [specJoined, lit_empty]
  | cons x rest =>
    cases rest with
    | nil => simp [specJoined]
    | cons y r => simp only []; exact builder_eq_specJoined sep (y :: r) x

/-- Filling slot `i` of a buffer that holds the images of the first `i` elements followed
by `k + 1` zero values gives the images of the first `i + 1` elements and `k` zero values. -/
theorem set_take_replicate {α β : Type} (f : α → β) (z : β) :
    ∀ (es : List α) (i k : Nat) (hi : i < es.length),
      ((es.take i).map f ++ List.replicate (k + 1) z).set i (f (es.get ⟨i, hi⟩))
        = (es.take (i + 1)).map f ++ List.replicate k z := by
  intro es
  induction es with
  | nil => intro i k hi; simp at hi
  | cons a t ih =>
    intro i k hi
    cases i with
    | zero => simp [List.replicate_succ]
    | succ j =>
      have hj : j < t.length := by simpa using hi
      have := ih j k hj
      simpa using this

/-- The loop started at index `i` with `errs` holding the first `i` messages ends, without
a panic, with `errs` holding every message and with the receiver as it was. -/
theorem rangeLoop_eq (es : List (Error Any)) :
    ∀ (k i : Nat) (fr : Frame Any), fr.errors.toList = es → i + k = es.length →
      fr.errs.toList = (es.take i).map (fun e => e.Message) ++ List.replicate k (lit "") →
      ∃ fr1 : Frame Any, rangeLoop k i fr = some fr1 ∧ fr1.errors = fr.errors ∧
        fr1.errs.toList = es.map (fun e => e.Message) := by
  intro k
  induction k with
  | zero =>
    intro i fr hes hik herrs
    have hi : i = es.length := by omega
    subst hi
    refine ⟨fr, rfl, rfl, ?_⟩
    simpa using herrs
  | succ k ih =>
    intro i fr hes hik herrs
    have hi : i < es.length := by omega
    have hlen : fr.errs.len = es.length := by
      simp [Slice.len, herrs]; omega
    have hidx : fr.errors.index i = some (es.get ⟨i, hi⟩) := by
      simp [Slice.index, hes, List.getElem?_eq_getElem hi]
    have hasg : fr.errs.assign i (es.get ⟨i, hi⟩).Message
        = some (Slice.mk (fr.errs.toList.set i (es.get ⟨i, hi⟩).Message)) := by
      simp [Slice.assign, hlen, hi]
    obtain ⟨fr1, h1, h2, h3⟩ := ih (i + 1)
      { fr with errs := Slice.mk (fr.errs.toList.set i (es.get ⟨i, hi⟩).Message) } hes (by omega)
      (by
        change fr.errs.toList.set i _ = _
        rw [herrs]
        exact set_take_replicate (fun e => e.Message) (lit "") es i k hi)
    refine ⟨fr1, ?_, h2, h3⟩
    simp only [rangeLoop, hidx, hasg]
    exact h1

/-- On an empty receiver the body returns `no errors` and leaves the receiver alone. -/
theorem run_empty (L : Errors Any) (h : L.len = 0) :
    Errors.Error.run L = some (lit "no errors", L) := by
  simp [Errors.Error.run, h]

/-- On a non-empty receiver the body returns the specified rendering, without a panic, and
leaves the receiver alone. -/
theorem run_nonempty (L : Errors Any) (h : L.len ≠ 0) :
    Errors.Error.run L = some (specRendering (messages L), L) := by
  obtain ⟨fr1, h1, h2, h3⟩ := rangeLoop_eq L.toList L.len 0
    { errors := L, errs := Slice.make (lit "") L.len } rfl (by simp [Slice.len])
    (by simp [Slice.make, Slice.toList])
  simp only [Errors.Error.run, beq_iff_eq, h, if_false, h1]
  simp only [strings_Join_eq, h3, h2, specRendering, messages]

theorem Error_nonempty (L : Errors Any) (h : L.len ≠ 0) :
    Errors.Error L = some (specRendering (messages L)) := by
  simp [Errors.Error, run_nonempty L h]

theorem Error_empty (L : Errors Any) (h : L.len = 0) :
    Errors.Error L = some (lit "no errors") := by
  simp [Errors.Error, run_empty L h]

theorem specJoined_eq_intercalate (sep : GoString) (msgs : List GoString) :
    specJoined sep msgs = List.intercalate sep msgs := by
  induction msgs with
  | nil => simp [specJoined, List.intercalate]
  | cons m ms ih =>
    cases ms with
    | nil => simp [specJoined, List.intercalate]
    | cons y r =>
      simp only [List.intercalate] at ih
      simp [specJoined, List.intercalate, ih, List.append_assoc]

/-! ## The rendering contract -/

/-- C1: for every non-empty Errors list, Errors.Error returns the text `graphql: ` followed
by the Message fields of the items in stored order, joined by the two-byte separator `; `,
with nothing after the last message and nothing in front of an individual message. -/
theorem C1_nonempty_list_rendering (L : Errors Any) (h : L.len ≠ 0) :
    Errors.Error L
        = some (lit "graphql: " ++ specJoined (lit "; ") (L.toList.map (fun e => e.Message)))
      ∧ Errors.Error L
        = some (lit "graphql: " ++
            List.intercalate (lit "; ") (L.toList.map (fun e => e.Message))) := by
  have h1 := Error_nonempty L h
  refine ⟨h1, ?_⟩
  rw [h1, specRendering, messages, specJoined_eq_intercalate]

theorem C1_witness :
    (Slice.mk [plain "E1", plain "E2", plain "E3"]).len ≠ 0
      ∧ Errors.Error (Slice.mk [plain "E1", plain "E2", plain "E3"])
        = some (lit "graphql: E1; E2; E3") :=
  ⟨by decide,
    (C1_nonempty_list_rendering (Slice.mk [plain "E1", plain "E2", plain "E3"])
      (by decide)).1.trans (by decide)⟩

/-- C2: for every empty Errors list, the nil slice included, Errors.Error returns exactly
the string `no errors`, which is 9 bytes and 9 characters long. -/
theorem C2_empty_list_rendering (L : Errors Any) (h : L.len = 0) :
    Errors.Error L = some (lit "no errors")
      ∧ (lit "no errors").length = 9 ∧ "no errors".length = 9 :=
  ⟨Error_empty L h, by decide, by decide⟩

theorem C2_witness :
    (Errors.Error (Slice.nil : Errors Scalar) = some (lit "no errors")
        ∧ (lit "no errors").length = 9 ∧ "no errors".length = 9)
      ∧ (Errors.Error (Slice.mk [] : Errors Scalar) = some (lit "no errors")
        ∧ (lit "no errors").length = 9 ∧ "no errors".length = 9) :=
  ⟨C2_empty_list_rendering Slice.nil (by decide),
    C2_empty_list_rendering (Slice.mk []) (by decide)⟩

/-- C3: for every Error value, Error.Error returns `graphql: ` followed by the Message,
byte for byte; the message `timeout` renders to `graphql: timeout`. -/
theorem C3_single_error_rendering :
    (∀ e : Error Any, Error.Error e = lit "graphql: " ++ e.Message)
      ∧ Error.Error (plain "timeout") = lit "graphql: timeout" :=
  ⟨fun _ => rfl, by decide⟩

/-- Lists of equal length with pairwise equal messages have the same messages. -/
theorem messages_congr (L1 L2 : Errors Any) (hlen : L1.len = L2.len)
    (hmsg : ∀ (i : Nat) (e1 e2 : Error Any),
      L1.index i = some e1 → L2.index i = some e2 → e1.Message = e2.Message) :
    messages L1 = messages L2 := by
  apply List.ext_getElem
  · simpa [messages, Slice.len] using hlen
  · intro n h1 h2
    simp only [messages, List.length_map] at h1 h2
    simp only [messages, List.getElem_map]
    exact hmsg n _ _ (by simp [Slice.index, List.getElem?_eq_getElem h1])
      (by simp [Slice.index, List.getElem?_eq_getElem h2])

/-- C4: the rendering does not depend on Locations, Path or Extensions. Two Error values
with equal Message render alike, and two Errors lists of equal length whose items have
pairwise equal Message render alike, whatever the other fields hold. -/
theorem C4_rendering_ignores_other_fields :
    (∀ e1 e2 : Error Any, e1.Message = e2.Message → Error.Error e1 = Error.Error e2)
      ∧ (∀ L1 L2 : Errors Any, L1.len = L2.len →
          (∀ (i : Nat) (e1 e2 : Error Any),
            L1.index i = some e1 → L2.index i = some e2 → e1.Message = e2.Message) →
          Errors.Error L1 = Errors.Error L2) := by
  refine ⟨?_, ?_⟩
  · intro e1 e2 h
    simp [Error.Error, Error.Error.run, h]
  · intro L1 L2 hlen hmsg
    by_cases h : L1.len = 0
    · rw [Error_empty L1 h, Error_empty L2 (hlen ▸ h)]
    · rw [Error_nonempty L1 h, Error_nonempty L2 (hlen ▸ h), messages_congr L1 L2 hlen hmsg]

theorem C4_witness :
    Error.Error (plain "boom") = Error.Error (detailed "boom")
      ∧ Errors.Error (Slice.mk [plain "boom", detailed "x"])
        = Errors.Error (Slice.mk [detailed "boom", plain "x"]) :=
  ⟨C4_rendering_ignores_other_fields.1 (plain "boom") (detailed "boom") (by decide),
    C4_rendering_ignores_other_fields.2 (Slice.mk [plain "boom", detailed "x"])
      (Slice.mk [detailed "boom", plain "x"]) (by decide) (by
        intro i e1 e2 h1 h2
        match i with
        | 0 =>
          simp only [Slice.index, Slice.toList, List.getElem?_cons_zero, Option.some.injEq]
            at h1 h2
          subst h1; subst h2; decide
        | 1 =>
          simp only [Slice.index, Slice.toList, List.getElem?_cons_succ,
            List.getElem?_cons_zero, Option.some.injEq] at h1 h2
          subst h1; subst h2; decide
        | n + 2 => simp [Slice.index, Slice.toList] at h1)⟩

/-- C5 as stated fails: the rendering of the Error with empty Message is `graphql: `, but
that string does not have 8 characters. -/
theorem C5_counterexample :
    ¬ (Error.Error (plain "") = lit "graphql: " ∧ (Error.Error (plain "")).length = 8) := by
  decide

/-- C5, amended: for the Error with empty Message, Error.Error returns the literal string
`graphql: `, and that string has 9 characters (9 bytes), the trailing space included. -/
theorem C5_empty_message_rendering (e : Error Any) (h : e.Message = lit "") :
    Error.Error e = lit "graphql: " ∧ (Error.Error e).length = 9
      ∧ "graphql: ".length = 9 := by
  have h1 : Error.Error e = lit "graphql: " := by
    simp [Error.Error, Error.Error.run, h, lit_empty]
  exact ⟨h1, by rw [h1]; decide, by decide⟩

theorem C5_witness :
    (plain "").Message = lit ""
      ∧ Error.Error (plain "") = lit "graphql: " ∧ (Error.Error (plain "")).length = 9
      ∧ "graphql: ".length = 9 :=
  ⟨rfl, C5_empty_message_rendering (plain "") rfl⟩

/-- C6: for every Error value the rendering of the single-item list holding it is
`graphql: ` followed by its Message with nothing after it, which is the rendering of the
item itself; the single message `Name is required` renders to `graphql: Name is required`. -/
theorem C6_single_item_list :
    (∀ e : Error Any, Errors.Error (Slice.mk [e]) = some (lit "graphql: " ++ e.Message)
        ∧ Errors.Error (Slice.mk [e]) = some (Error.Error e))
      ∧ Errors.Error (Slice.mk [plain "Name is required"])
        = some (lit "graphql: Name is required") := by
  refine ⟨?_, by decide⟩
  intro e
  have h := Error_nonempty (Slice.mk [e]) (by simp [Slice.len, Slice.toList])
  simp only [specRendering, messages, Slice.toList, List.map, specJoined] at h
  exact ⟨h, h⟩

/-- A string that is `graphql: ` followed by anything starts with `graphql: `. -/
theorem startsWith_graphql (t : GoString) :
    startsWith (lit "graphql: " ++ t) (lit "graphql: ") = true := by
  simp [startsWith]

/-- C7: the rendering of an empty Errors list differs from that of every non-empty one.
No non-empty list renders to `no errors`, no empty list renders to `graphql: `, and the
rendering starts with `graphql: ` exactly when the list is non-empty. -/
theorem C7_empty_rendering_distinct (L : Errors Any) :
    (L.len ≠ 0 → Errors.Error L ≠ some (lit "no errors"))
      ∧ (L.len = 0 → Errors.Error L ≠ some (lit "graphql: "))
      ∧ (L.len = 0 → ∀ L1 : Errors Any, L1.len ≠ 0 → Errors.Error L ≠ Errors.Error L1)
      ∧ ((∃ s, Errors.Error L = some s ∧ startsWith s (lit "graphql: ") = true)
          ↔ L.len ≠ 0) := by
  have hno : startsWith (lit "no errors") (lit "graphql: ") = false := by decide
  have key : ∀ M : Errors Any, M.len ≠ 0 → Errors.Error M ≠ some (lit "no errors") := by
    intro M hM hEq
    rw [Error_nonempty M hM, Option.some.injEq] at hEq
    have := startsWith_graphql (specJoined (lit "; ") (messages M))
    rw [specRendering] at hEq
    rw [hEq, hno] at this
    exact Bool.false_ne_true this
  refine ⟨key L, ?_, ?_, ?_⟩
  · intro h hEq
    rw [Error_empty L h, Option.some.injEq] at hEq
    exact absurd hEq (by decide)
  · intro h L1 h1 hEq
    rw [Error_empty L h] at hEq
    exact key L1 h1 hEq.symm
  · constructor
    · rintro ⟨s, hs, hp⟩ h
      rw [Error_empty L h, Option.some.injEq] at hs
      rw [← hs, hno] at hp
      exact Bool.false_ne_true hp
    · intro h
      exact ⟨_, Error_nonempty L h, startsWith_graphql _⟩

theorem C7_witness :
    Errors.Error (Slice.mk [plain "no errors"]) ≠ some (lit "no errors")
      ∧ Errors.Error (Slice.nil : Errors Scalar) ≠ some (lit "graphql: ")
      ∧ Errors.Error (Slice.nil : Errors Scalar) ≠ Errors.Error (Slice.mk [plain ""])
      ∧ ∃ s, Errors.Error (Slice.mk [plain ""]) = some s
          ∧ startsWith s (lit "graphql: ") = true :=
  ⟨(C7_empty_rendering_distinct (Slice.mk [plain "no errors"])).1 (by decide),
    (C7_empty_rendering_distinct (Slice.nil : Errors Scalar)).2.1 (by decide),
    (C7_empty_rendering_distinct (Slice.nil : Errors Scalar)).2.2.1 (by decide)
      (Slice.mk [plain ""]) (by decide),
    (C7_empty_rendering_distinct (Slice.mk [plain ""])).2.2.2.2 (by decide)⟩

/-- C8: every failure value has a non-empty textual form. For every Errors list, empty or
not, Errors.Error returns a string that is not empty, and so does Error.Error for every
Error value. -/
theorem C8_rendering_never_empty :
    (∀ L : Errors Any, ∃ s, Errors.Error L = some s ∧ s ≠ lit "" ∧ 0 < s.length)
      ∧ (∀ e : Error Any, Error.Error e ≠ lit "" ∧ 0 < (Error.Error e).length) := by
  have hpos : ∀ t : GoString, 0 < (lit "graphql: " ++ t).length := by
    intro t
    rw [List.length_append, lit_graphql_length]
    omega
  have hne : ∀ s : GoString, 0 < s.length → s ≠ lit "" := by
    intro s hs hEq
    rw [hEq, lit_empty] at hs
    simp at hs
  refine ⟨?_, ?_⟩
  · intro L
    by_cases h : L.len = 0
    · exact ⟨_, Error_empty L h, by decide, by decide⟩
    · exact ⟨_, Error_nonempty L h, hne _ (hpos _), hpos _⟩
  · intro e
    exact ⟨hne _ (hpos _), hpos _⟩

/-- The joined text splits around its `i`-th message: what stands before it is as long as
the messages before it plus one separator for each of them. -/
theorem specJoined_split (sep : GoString) :
    ∀ (msgs : List GoString) (i : Nat) (m : GoString), msgs[i]? = some m →
      ∃ A B : GoString, specJoined sep msgs = A ++ m ++ B
        ∧ A.length = ((msgs.take i).map List.length).sum + sep.length * i := by
  intro msgs
  induction msgs with
  | nil => intro i m hm; simp at hm
  | cons x ms ih =>
    intro i m hm
    cases i with
    | zero =>
      simp only [List.getElem?_cons_zero, Option.some.injEq] at hm
      subst hm
      cases ms with
      | nil => exact ⟨[], [], by simp [specJoined], by simp⟩
      | cons y r => exact ⟨[], sep ++ specJoined sep (y :: r), by simp [specJoined], by simp⟩
    | succ j =>
      simp only [List.getElem?_cons_succ] at hm
      obtain ⟨A, B, hAB, hA⟩ := ih j m hm
      cases ms with
      | nil => simp at hm
      | cons y r =>
        refine ⟨x ++ sep ++ A, B, ?_, ?_⟩
        · simp only [specJoined, hAB, List.append_assoc]
        · simp only [List.length_append, hA, List.take_succ_cons, List.map_cons, List.sum_cons]
          rw [Nat.mul_succ]
          omega

/-- Cutting `P ++ A ++ m ++ B` from the end of `P ++ A` for the length of `m` gives `m`. -/
theorem substr_middle (P A m B : GoString) (off : Nat) (h : off = P.length + A.length) :
    substr (P ++ (A ++ m ++ B)) off (off + m.length) = m := by
  subst h
  have e1 : P ++ (A ++ m ++ B) = (P ++ A ++ m) ++ B := by simp [List.append_assoc]
  have l1 : (P ++ A ++ m).length = P.length + A.length + m.length := by
    simp only [List.length_append]
  have l2 : (P ++ A).length = P.length + A.length := by simp [List.length_append]
  rw [substr, e1, ← l1, List.take_left, ← l2, List.drop_left]

/-- C9: messages are inserted verbatim, also when they contain `;` or `; `. For every
non-empty Errors list and every index i, the Message of item i is the contiguous part of
the rendering that starts at byte offset 9 + (the lengths of the messages before i) + 2*i. -/
theorem C9_messages_verbatim (L : Errors Any) (h : L.len ≠ 0) (i : Nat) (e : Error Any)
    (hi : L.index i = some e) :
    ∃ s, Errors.Error L = some s
      ∧ 9 + ((L.toList.take i).map (fun x => x.Message.length)).sum + 2 * i
          + e.Message.length ≤ s.length
      ∧ substr s (9 + ((L.toList.take i).map (fun x => x.Message.length)).sum + 2 * i)
          (9 + ((L.toList.take i).map (fun x => x.Message.length)).sum + 2 * i
            + e.Message.length) = e.Message := by
  have hm : (messages L)[i]? = some e.Message := by
    simp only [Slice.index] at hi
    simp [messages, List.getElem?_map, hi]
  obtain ⟨A, B, hAB, hA⟩ := specJoined_split (lit "; ") (messages L) i e.Message hm
  have hsum : ((messages L).take i).map List.length
      = (L.toList.take i).map (fun x => x.Message.length) := by
    simp [messages, ← List.map_take, List.map_map, Function.comp_def]
  rw [hsum, lit_sep_length] at hA
  have hoff : 9 + ((L.toList.take i).map (fun x => x.Message.length)).sum + 2 * i
      = (lit "graphql: ").length + A.length := by
    rw [lit_graphql_length, hA]; omega
  refine ⟨_, Error_nonempty L h, ?_, ?_⟩
  · rw [specRendering, hAB, hoff]
    simp only [List.length_append]
    omega
  · rw [specRendering, hAB]
    exact substr_middle _ A e.Message B _ hoff

theorem C9_witness :
    Errors.Error (Slice.mk [plain "a;b", plain "c"]) = some (lit "graphql: a;b; c")
      ∧ Errors.Error (Slice.mk [plain "a; b", plain "c"]) = some (lit "graphql: a; b; c")
      ∧ ∃ s, Errors.Error (Slice.mk [plain "a; b", plain "c"]) = some s
          ∧ 15 + 1 ≤ s.length ∧ substr s 15 (15 + 1) = lit "c" :=
  ⟨by decide, by decide,
    C9_messages_verbatim (Slice.mk [plain "a; b", plain "c"]) (by decide) 1 (plain "c") rfl⟩

/-- C10: rendering is pure and deterministic. Running either method body leaves its
receiver, every item and every field of it, as it was, never panics, and a second call on
the value the first one left returns the same string. -/
theorem C10_rendering_pure :
    (∀ e : Error Any, (Error.Error.run e).2 = e
        ∧ Error.Error (Error.Error.run e).2 = Error.Error e)
      ∧ (∀ L : Errors Any, ∃ s : GoString, Errors.Error.run L = some (s, L)
          ∧ Errors.Error L = some s
          ∧ (Errors.Error.run L).bind (fun r => Errors.Error r.2) = some s) := by
  refine ⟨fun e => ⟨rfl, rfl⟩, ?_⟩
  intro L
  by_cases h : L.len = 0
  · refine ⟨_, run_empty L h, Error_empty L h, ?_⟩
    rw [run_empty L h]
    exact Error_empty L h
  · refine ⟨_, run_nonempty L h, Error_nonempty L h, ?_⟩
    rw [run_nonempty L h]
    exact Error_nonempty L h

/-! ## Aliasing, length and algebra of the rendering -/

/-- The list rendering is a function of the messages of the items. -/
theorem Error_congr_messages (L1 L2 : Errors Any) (h : messages L1 = messages L2) :
    Errors.Error L1 = Errors.Error L2 := by
  have hlen : L1.len = L2.len := by
    have := congrArg List.length h
    simpa [messages, Slice.len] using this
  by_cases h0 : L1.len = 0
  · rw [Error_empty L1 h0, Error_empty L2 (hlen ▸ h0)]
  · rw [Error_nonempty L1 h0, Error_nonempty L2 (hlen ▸ h0), h]

/-- Replacing an element by one with the same image leaves the images as they were. -/
theorem map_set_same {α β : Type} (f : α → β) (l : List α) (i : Nat) (v old : α)
    (hold : l[i]? = some old) (hf : f v = f old) : (l.set i v).map f = l.map f := by
  have hi : i < l.length := by
    rcases Nat.lt_or_ge i l.length with hlt | hge
    · exact hlt
    · rw [List.getElem?_eq_none hge] at hold
      exact absurd hold (by simp)
  apply List.ext_getElem?
  intro n
  by_cases hn : i = n
  · subst hn
    have hget : l[i] = old := by
      rw [List.getElem?_eq_getElem hi, Option.some.injEq] at hold
      exact hold
    simp [List.getElem?_set, hi, hf, hget]
  · rw [List.map_set, List.getElem?_set_ne hn]

/-- After a write through a valid slice variable, the slice value seen through it is the
old one with the written element replaced. -/
theorem deref_store {α : Type} (h h1 : Heap α) (s : SliceRef) (i : Nat) (v : α)
    (hv : SliceRef.valid h s = true) (hs : SliceRef.store h s i v = some h1) :
    SliceRef.deref h1 s = Slice.mk ((SliceRef.deref h s).toList.set i v) := by
  cases s with
  | none => simp [SliceRef.store] at hs
  | some hd =>
    simp only [SliceRef.valid, Bool.and_eq_true, decide_eq_true_eq] at hv
    simp only [SliceRef.store] at hs
    split at hs
    · simp only [Option.some.injEq] at hs
      subst hs
      have hget : (h.set hd.array ((h.getD hd.array []).set (hd.off + i) v)).getD hd.array []
          = (h.getD hd.array []).set (hd.off + i) v := by
        simp [List.getD_eq_getElem?_getD, List.getElem?_set_self hv.1]
      simp only [SliceRef.deref, Slice.toList, hget]
      rw [← List.set_drop, List.set_take]
    · simp at hs

/-- C11 as stated fails: `s` holds one error with message `a`, `L := Errors(s)`, and the
later write `s[0] = Error{Message: "b"}` changes the rendering of `L` from `graphql: a` to
`graphql: b`. -/
theorem C11_counterexample :
    SliceRef.valid heap0 s0 = true
      ∧ Errors.Error.inHeap heap0 (Errors.ofSlice heap0 s0).2 = some (lit "graphql: a")
      ∧ (SliceRef.store heap0 s0 0 (plain "b")).bind
          (fun h1 => Errors.Error.inHeap h1 (Errors.ofSlice heap0 s0).2)
        = some (lit "graphql: b")
      ∧ ¬ ((SliceRef.store heap0 s0 0 (plain "b")).bind
            (fun h1 => Errors.Error.inHeap h1 (Errors.ofSlice heap0 s0).2)
          = Errors.Error.inHeap heap0 (Errors.ofSlice heap0 s0).2) := by
  decide

/-- C11, amended: constructing an Error or an Errors list never mutates its inputs, and the
rendering of an Error does not change with the sequences it was built from. The conversion
`L := Errors(s)` shares the elements of `s`: after a later write `s[i] = v` the rendering of
`L` is that of the items with item `i` replaced by `v`, and it is unchanged when `v` has the
Message of the item it replaces. -/
theorem C11_conversion_shares_elements (h : Heap (Error Any)) (s : SliceRef)
    (hv : SliceRef.valid h s = true) :
    (Errors.ofSlice h s).1 = h ∧ (Errors.ofSlice h s).2 = s
      ∧ (∀ (i : Nat) (v : Error Any) (h1 : Heap (Error Any)),
          SliceRef.store h s i v = some h1 →
          Errors.Error.inHeap h1 (Errors.ofSlice h s).2
              = Errors.Error (Slice.mk ((SliceRef.deref h s).toList.set i v))
            ∧ (∀ old : Error Any, (SliceRef.deref h s).index i = some old →
                v.Message = old.Message →
                Errors.Error.inHeap h1 (Errors.ofSlice h s).2
                  = Errors.Error.inHeap h (Errors.ofSlice h s).2))
      ∧ (∀ (m : GoString) (l l1 : Slice Location) (p p1 : Slice Any)
          (x x1 : Option (List (GoString × Any))),
          (Error.mk m l p x).Message = m ∧ (Error.mk m l p x).Locations = l
            ∧ (Error.mk m l p x).Path = p ∧ (Error.mk m l p x).Extensions = x
            ∧ Error.Error (Error.mk m l p x) = Error.Error (Error.mk m l1 p1 x1)) := by
  refine ⟨rfl, rfl, ?_, fun m l l1 p p1 x x1 => ⟨rfl, rfl, rfl, rfl, rfl⟩⟩
  intro i v h1 hs
  have hd := deref_store h h1 s i v hv hs
  have e1 : Errors.Error.inHeap h1 (Errors.ofSlice h s).2
      = Errors.Error (Slice.mk ((SliceRef.deref h s).toList.set i v)) := by
    simp only [Errors.Error.inHeap, Errors.ofSlice, hd]
  refine ⟨e1, ?_⟩
  intro old hold hmsg
  rw [e1]
  simp only [Errors.Error.inHeap, Errors.ofSlice]
  apply Error_congr_messages
  exact map_set_same (fun e => e.Message) (SliceRef.deref h s).toList i v old hold hmsg

theorem C11_witness :
    SliceRef.valid heap0 s0 = true
      ∧ Errors.Error.inHeap [[detailed "a"]] s0 = Errors.Error.inHeap heap0 s0 :=
  ⟨by decide,
    ((C11_conversion_shares_elements heap0 s0 (by decide)).2.2.1 0 (detailed "a")
      [[detailed "a"]] rfl).2 (plain "a") rfl rfl⟩

/-- The joined text of a non-empty sequence is as long as its messages plus one separator
for each message but the last. -/
theorem specJoined_length (sep : GoString) :
    ∀ msgs : List GoString, msgs ≠ [] →
      (specJoined sep msgs).length
        = (msgs.map List.length).sum + sep.length * (msgs.length - 1) := by
  intro msgs
  induction msgs with
  | nil => intro h; exact absurd rfl h
  | cons m ms ih =>
    intro _
    cases ms with
    | nil => simp [specJoined]
    | cons y r =>
      have ih1 := ih (by simp)
      simp only [specJoined, List.length_append] at ih1 ⊢
      rw [ih1]
      simp only [List.map_cons, List.sum_cons, List.length_cons, Nat.add_sub_cancel]
      rw [Nat.mul_succ]
      omega

/-- C12: for every non-empty Errors list of n items, the byte length of the rendering is
exactly 9 + (the byte lengths of the Message fields) + 2*(n-1): the fixed text, the
messages, and one two-byte separator between each adjacent pair, none after the last. -/
theorem C12_rendering_length (L : Errors Any) (h : L.len ≠ 0) :
    ∃ s, Errors.Error L = some s
      ∧ s.length = 9 + (L.toList.map (fun e => e.Message.length)).sum + 2 * (L.len - 1) := by
  refine ⟨_, Error_nonempty L h, ?_⟩
  have hne : messages L ≠ [] := by
    intro hnil
    apply h
    have := congrArg List.length hnil
    simpa [messages, Slice.len] using this
  rw [specRendering, List.length_append, lit_graphql_length,
    specJoined_length (lit "; ") (messages L) hne, lit_sep_length]
  simp [messages, Slice.len, List.map_map, Function.comp_def, Nat.add_assoc]

theorem C12_witness :
    ∃ s, Errors.Error (Slice.mk [plain "E1", plain "E2", plain "E3"]) = some s
      ∧ s.length = 9 + (2 + (2 + (2 + 0))) + 2 * (3 - 1) :=
  C12_rendering_length (Slice.mk [plain "E1", plain "E2", plain "E3"]) (by decide)

/-- Joining a concatenation of two non-empty sequences joins each and puts one separator
between the two. -/
theorem specJoined_append (sep : GoString) (b : List GoString) (hb : b ≠ []) :
    ∀ a : List GoString, a ≠ [] →
      specJoined sep (a ++ b) = specJoined sep a ++ sep ++ specJoined sep b := by
  intro a
  induction a with
  | nil => intro h; exact absurd rfl h
  | cons m ms ih =>
    intro _
    cases ms with
    | nil =>
      cases b with
      | nil => exact absurd rfl hb
      | cons y r => simp [specJoined]
    | cons y r =>
      have ih1 := ih (by simp)
      simp only [List.cons_append] at ih1 ⊢
      simp only [specJoined, ih1, List.append_assoc]

/-- C13: rendering distributes over concatenation of non-empty lists. For two non-empty
Errors lists A and B, the rendering of A followed by B is the rendering of A, then `; `,
then the rendering of B without its leading 9 bytes `graphql: `. -/
theorem C13_rendering_of_concatenation (A B : Errors Any) (hA : A.len ≠ 0) (hB : B.len ≠ 0) :
    ∃ sA sB : GoString, Errors.Error A = some sA ∧ Errors.Error B = some sB
      ∧ substr sB 0 9 = lit "graphql: "
      ∧ Errors.Error (Slice.append A B) = some (sA ++ lit "; " ++ substr sB 9 sB.length) := by
  have hlen : (lit "graphql: ").length = 9 := lit_graphql_length
  have hsum : (Slice.append A B).len = A.len + B.len := by
    show (A.toList ++ B.toList).length = A.toList.length + B.toList.length
    exact List.length_append _ _
  have hAB : (Slice.append A B).len ≠ 0 := by omega
  have hmA : messages A ≠ [] := by
    intro hnil
    apply hA
    have := congrArg List.length hnil
    simpa [messages, Slice.len] using this
  have hmB : messages B ≠ [] := by
    intro hnil
    apply hB
    have := congrArg List.length hnil
    simpa [messages, Slice.len] using this
  refine ⟨_, _, Error_nonempty A hA, Error_nonempty B hB, ?_, ?_⟩
  · rw [substr, specRendering, List.drop_zero, ← hlen, List.take_left]
  · rw [Error_nonempty _ hAB]
    have hm : messages (Slice.append A B) = messages A ++ messages B := by
      simp [messages, Slice.append, Slice.toList]
    have hdrop : substr (specRendering (messages B)) 9 (specRendering (messages B)).length
        = specJoined (lit "; ") (messages B) := by
      rw [substr, List.take_length, specRendering, ← hlen, List.drop_left]
    rw [hdrop, hm, specRendering, specJoined_append (lit "; ") (messages B) hmB (messages A) hmA,
      specRendering]
    simp only [List.append_assoc]

theorem C13_witness :
    Errors.Error (Slice.append (Slice.mk [plain "E1"]) (Slice.mk [plain "E2", plain "E3"]))
        = some (lit "graphql: E1; E2; E3")
      ∧ ∃ sA sB : GoString, Errors.Error (Slice.mk [plain "E1"]) = some sA
          ∧ Errors.Error (Slice.mk [plain "E2", plain "E3"]) = some sB
          ∧ substr sB 0 9 = lit "graphql: "
          ∧ Errors.Error (Slice.append (Slice.mk [plain "E1"])
              (Slice.mk [plain "E2", plain "E3"]))
            = some (sA ++ lit "; " ++ substr sB 9 sB.length) :=
  ⟨by decide,
    C13_rendering_of_concatenation (Slice.mk [plain "E1"]) (Slice.mk [plain "E2", plain "E3"])
      (by decide) (by decide)⟩

/-- C14: the list rendering is not injective on message sequences. The list with messages
`a; b`, `c` and the list with messages `a`, `b`, `c` differ in length and in messages, and
both render to `graphql: a; b; c`. -/
theorem C14_rendering_not_injective :
    (Slice.mk [plain "a; b", plain "c"]).len ≠ (Slice.mk [plain "a", plain "b", plain "c"]).len
      ∧ messages (Slice.mk [plain "a; b", plain "c"])
          ≠ messages (Slice.mk [plain "a", plain "b", plain "c"])
      ∧ Errors.Error (Slice.mk [plain "a; b", plain "c"]) = some (lit "graphql: a; b; c")
      ∧ Errors.Error (Slice.mk [plain "a", plain "b", plain "c"])
          = some (lit "graphql: a; b; c")
      ∧ Errors.Error (Slice.mk [plain "a; b", plain "c"])
          = Errors.Error (Slice.mk [plain "a", plain "b", plain "c"]) := by
  decide

/-- C15: the single-error rendering is injective on the message, and the message is
recovered from it. Two Error values render alike exactly when their Message fields are
equal, and the rendering without its first 9 bytes is the Message. -/
theorem C15_single_rendering_injective :
    (∀ e1 e2 : Error Any, Error.Error e1 = Error.Error e2 ↔ e1.Message = e2.Message)
      ∧ (∀ e : Error Any, substr (Error.Error e) 9 (Error.Error e).length = e.Message
          ∧ (Error.Error e).drop 9 = e.Message) := by
  have hlen : (lit "graphql: ").length = 9 := lit_graphql_length
  have hdrop : ∀ e : Error Any, (Error.Error e).drop 9 = e.Message := by
    intro e
    show (lit "graphql: " ++ e.Message).drop 9 = e.Message
    rw [← hlen, List.drop_left]
  refine ⟨?_, ?_⟩
  · intro e1 e2
    constructor
    · intro h
      rw [← hdrop e1, ← hdrop e2, h]
    · intro h
      show lit "graphql: " ++ e1.Message = lit "graphql: " ++ e2.Message
      rw [h]
  · intro e
    refine ⟨?_, hdrop e⟩
    rw [substr, List.take_length]
    exact hdrop e

end graphql
